import Mathlib

/-!
Verification of the geometric-polyline pipeline of the repository
(`StaticPinDrop`-style Vue component): the path simplifier
(`simplifyPath`, `getSqDist`, `getSqSegDist`, `simplifyDPStep`) and the
Google polyline delta encoder (`encodePolyline`, `encodeSignedNumber`,
`encodeNumber`).

The JavaScript source is shallowly embedded over exact rationals (`ℚ`)
for coordinates and arbitrary-precision integers (`ℤ`) for the rounded
scaled coordinates; 32-bit wrap-around of the JavaScript bitwise
operators is made explicit through `toInt32`.  Recursion that the
source expresses as a `while` loop or as recursion on an index range is
embedded structurally with an explicit fuel argument; the fuel supplied
at every call site is an upper bound on the number of iterations the
source performs, so the embedded functions agree with the source (the
fuel-exhaustion branches are unreachable at the supplied fuel).
-/

/-- A point, as the two-element array `[lat, lng]` of the source. -/
abbrev Point : Type := ℚ × ℚ

/-- ECMAScript `ToInt32`: reduce an integer into `[-2^31, 2^31)`.
Applied implicitly by the JavaScript bitwise operators `<<`, `~`. -/
def toInt32 (n : ℤ) : ℤ := (n + 2 ^ 31) % 2 ^ 32 - 2 ^ 31

/-- JavaScript `Math.round`: the nearest integer, ties toward `+∞`. -/
def jsRound (x : ℚ) : ℤ := ⌊x + 1 / 2⌋

/-- The `while (num >= 0x20)` loop of `encodeNumber`, for the
non-negative values it is reached with.  Structural fuel: the value
shrinks by a factor of `2^5` per iteration, so `fuel = num` iterations
always suffice (the fuel-0 branch coincides with the loop exit when
`num < 0x20`, and is otherwise unreachable). -/
def encodeNumberLoop : ℕ → ℕ → List ℕ
  | 0, num => [num + 63]
  | fuel + 1, num =>
    if num < 0x20 then [num + 63]
    else ((0x20 ||| (num &&& 0x1f)) + 63) :: encodeNumberLoop fuel (num >>> 5)

/-- `encodeNumber`: unsigned variable-length base32 encoding, emitting
character codes.  `String.fromCharCode` applies `ToUint16`, hence the
`% 65536` on the single emitted code when `num` is negative; inside the
loop every code lies in `[63, 126]` so the reduction is omitted there. -/
def encodeNumber (num : ℤ) : List ℕ :=
  if num < 0x20 then [((num + 63) % 65536).toNat]
  else encodeNumberLoop num.toNat num.toNat

/-- The zig-zag transformation of `encodeSignedNumber`: `num << 1` is
`toInt32 (2 * toInt32 num)`; `~sgnNum` is `-sgnNum - 1` (the result is
already in 32-bit range, so no further wrap occurs). -/
def signedTransform (num : ℤ) : ℤ :=
  let sgnNum := toInt32 (2 * toInt32 num)
  if num < 0 then -sgnNum - 1 else sgnNum

/-- `encodeSignedNumber`. -/
def encodeSignedNumber (num : ℤ) : List ℕ :=
  encodeNumber (signedTransform num)

/-- Modelled from the spec: the reciprocal zig-zag decoding step of the
standard public polyline decoder (not part of this repository).  An odd
bit pattern `z` decodes to `~(z >> 1) = -(z / 2) - 1`, an even one to
`z >> 1 = z / 2`. -/
def zigzagDecode (z : ℤ) : ℤ :=
  if z % 2 = 1 then -(z / 2) - 1 else z / 2

/-- The `for` loop of `encodePolyline`, carrying the `prevLat` and
`prevLng` accumulators. -/
def encodePolylineAux : List Point → ℤ → ℤ → List ℕ
  | [], _, _ => []
  | p :: ps, prevLat, prevLng =>
    let lat := jsRound (p.1 * 100000)
    let lng := jsRound (p.2 * 100000)
    encodeSignedNumber (lat - prevLat) ++ encodeSignedNumber (lng - prevLng)
      ++ encodePolylineAux ps lat lng

/-- `encodePolyline`, producing the list of character codes. -/
def encodePolyline (points : List Point) : List ℕ :=
  encodePolylineAux points 0 0

/-- `encodePolyline` as a string, the actual return value of the source. -/
def encodePolylineString (points : List Point) : String :=
  String.mk ((encodePolyline points).map Char.ofNat)

/-! ## The path simplifier -/

/-- `getSqDist`: squared Euclidean distance between two points. -/
def getSqDist (p1 p2 : Point) : ℚ :=
  (p1.1 - p2.1) * (p1.1 - p2.1) + (p1.2 - p2.2) * (p1.2 - p2.2)

/-- `getSqSegDist`: squared distance from `p` to the segment `p1`–`p2`.
The mutable `x`, `y` of the source become the intermediate point `q`
(the source's final `dx = p[0] - x`, `dy = p[1] - y` then square the
offset of `p` from `q`). -/
def getSqSegDist (p p1 p2 : Point) : ℚ :=
  let dx := p2.1 - p1.1
  let dy := p2.2 - p1.2
  let q : Point :=
    if dx ≠ 0 ∨ dy ≠ 0 then
      let t := ((p.1 - p1.1) * dx + (p.2 - p1.2) * dy) / (dx * dx + dy * dy)
      if t > 1 then p2
      else if t > 0 then (p1.1 + dx * t, p1.2 + dy * t)
      else p1
    else p1
  (p.1 - q.1) * (p.1 - q.1) + (p.2 - q.2) * (p.2 - q.2)

/-- The stage-1 loop of `simplifyPath` (`for i = 1; i < length - 1`):
`prev` is `points[i - 1]` — the preceding *input* point, kept or not —
and the final singleton case is the unconditional `push` of the last
point. -/
def vertexReduceAux (sqTolerance : ℚ) : Point → List Point → List Point
  | _, [] => []
  | _, [pLast] => [pLast]
  | prev, pt :: q :: rest =>
    if getSqDist pt prev > sqTolerance then pt :: vertexReduceAux sqTolerance pt (q :: rest)
    else vertexReduceAux sqTolerance pt (q :: rest)

/-- Stage 1 of `simplifyPath` (vertex reduction), starting from
`reducedPoints = [points[0]]`.  The empty case is never reached: the
caller returns early for paths of length at most two. -/
def vertexReduce (points : List Point) (sqTolerance : ℚ) : List Point :=
  match points with
  | [] => []
  | p0 :: rest => p0 :: vertexReduceAux sqTolerance p0 rest

/-- One step of the scan loop of `simplifyDPStep`, tracking the running
`(index, maxSqDist)` pair (`index = none` for the initial `null`). -/
def dpStep (points : List Point) (first last : ℕ) (acc : Option ℕ × ℚ) (i : ℕ) :
    Option ℕ × ℚ :=
  let sqDist := getSqSegDist (points.getD i (0, 0)) (points.getD first (0, 0))
    (points.getD last (0, 0))
  if sqDist > acc.2 then (some i, sqDist) else acc

/-- The scan loop of `simplifyDPStep` over `i = first + 1, …, last - 1`,
with `maxSqDist` initialised to `sqTolerance` and `index` to `null`. -/
def dpScan (points : List Point) (first last : ℕ) (sqTolerance : ℚ) : Option ℕ × ℚ :=
  (List.range' (first + 1) (last - first - 1)).foldl (dpStep points first last)
    (none, sqTolerance)

/-- `simplifyDPStep`: the recursive Douglas–Peucker refinement.  The
mutated `simplified` array becomes an accumulator that each call
returns extended.  The recursion (on the index range) is embedded with
structural fuel; the recursion depth is bounded by `last - first`, so
the fuel `points.length` supplied by `simplifyPath` never runs out (the
fuel-0 branch returns the accumulator unchanged, exactly like a call
whose scan finds no point above the tolerance). -/
def simplifyDPStep (points : List Point) (sqTolerance : ℚ) :
    ℕ → ℕ → ℕ → List Point → List Point
  | 0, _, _, simplified => simplified
  | fuel + 1, first, last, simplified =>
    match dpScan points first last sqTolerance with
    | (some index, _) =>
      let simplified1 :=
        if index - first > 1 then simplifyDPStep points sqTolerance fuel first index simplified
        else simplified
      let simplified2 := simplified1 ++ [points.getD index (0, 0)]
      if last - index > 1 then simplifyDPStep points sqTolerance fuel index last simplified2
      else simplified2
    | (none, _) => simplified

/-- `simplifyPath`: stage 1 (vertex reduction) followed by stage 2
(Douglas–Peucker refinement between the first and last reduced
points). -/
def simplifyPath (points : List Point) (tolerance : ℚ) : List Point :=
  if points.length ≤ 2 then points
  else
    let sqTolerance := tolerance * tolerance
    let reducedPoints := vertexReduce points sqTolerance
    let simplified0 := [reducedPoints.getD 0 (0, 0)]
    let simplified := simplifyDPStep reducedPoints sqTolerance reducedPoints.length 0
      (reducedPoints.length - 1) simplified0
    simplified ++ [reducedPoints.getD (reducedPoints.length - 1) (0, 0)]

/-! ## Helper lemmas for the encoder -/

lemma toInt32_eq_self {n : ℤ} (h1 : -2 ^ 31 ≤ n) (h2 : n < 2 ^ 31) : toInt32 n = n := by
  unfold toInt32
  omega

lemma signedTransform_eq_of_small {d : ℤ} (h1 : -2 ^ 30 ≤ d) (h2 : d < 2 ^ 30) :
    signedTransform d = if d < 0 then -(2 * d) - 1 else 2 * d := by
  unfold signedTransform
  rw [toInt32_eq_self (n := d) (by omega) (by omega),
    toInt32_eq_self (n := 2 * d) (by omega) (by omega)]

lemma signedTransform_nonneg {d : ℤ} (h1 : -2 ^ 30 ≤ d) (h2 : d < 2 ^ 30) :
    0 ≤ signedTransform d := by
  rw [signedTransform_eq_of_small h1 h2]
  split <;> omega

lemma encodeNumberLoop_mem_range {fuel n c : ℕ} (hn : n < 32 ^ fuel)
    (hc : c ∈ encodeNumberLoop fuel n) : 63 ≤ c ∧ c ≤ 126 := by
  induction fuel generalizing n with
  | zero =>
    simp only [pow_zero, Nat.lt_one_iff] at hn
    subst hn
    simp only [encodeNumberLoop, List.mem_singleton] at hc
    omega
  | succ fuel ih =>
    rw [encodeNumberLoop] at hc
    split at hc
    · simp only [List.mem_singleton] at hc
      omega
    · rcases List.mem_cons.mp hc with h | h
      · have hand : n &&& 0x1f ≤ 0x1f := Nat.and_le_right
        have hor : 2 ^ 5 * 1 + (n &&& 0x1f) = 2 ^ 5 * 1 ||| (n &&& 0x1f) :=
          Nat.mul_add_lt_is_or (by omega) 1
        have hor' : (2 : ℕ) ^ 5 * 1 = 0x20 := by norm_num
        rw [hor'] at hor
        omega
      · exact ih (by
          have : n >>> 5 = n / 32 := Nat.shiftRight_eq_div_pow n 5
          rw [this]
          have h32 : (32 : ℕ) ^ (fuel + 1) = 32 ^ fuel * 32 := by ring
          omega) h

lemma encodeNumber_mem_range {num : ℤ} (h : 0 ≤ num) {c : ℕ}
    (hc : c ∈ encodeNumber num) : 63 ≤ c ∧ c ≤ 126 := by
  unfold encodeNumber at hc
  split at hc
  · rename_i hlt
    have : (num + 63) % 65536 = num + 63 := Int.emod_eq_of_lt (by omega) (by omega)
    rw [this] at hc
    simp only [List.mem_singleton] at hc
    omega
  · rename_i hge
    refine encodeNumberLoop_mem_range ?_ hc
    have h1 : 1 ≤ num.toNat := by omega
    calc num.toNat < 2 ^ num.toNat := Nat.lt_two_pow num.toNat
    _ ≤ 32 ^ num.toNat := Nat.pow_le_pow_left (by norm_num) _

lemma jsRound_abs_le {x : ℚ} {b : ℚ} {m : ℤ} (hmb : b ≤ (m : ℚ))
    (h1 : -b ≤ x) (h2 : x ≤ b) : -(m + 1) ≤ jsRound x ∧ jsRound x ≤ m + 1 := by
  unfold jsRound
  constructor
  · have hlb : ((-(m + 1) : ℤ) : ℚ) ≤ x + 1 / 2 := by push_cast; linarith
    have := Int.le_floor.mpr hlb
    omega
  · have hub : (⌊x + 1 / 2⌋ : ℚ) ≤ x + 1 / 2 := Int.floor_le _
    have hcast : (⌊x + 1 / 2⌋ : ℚ) ≤ (m : ℚ) + 1 := by linarith
    exact_mod_cast hcast

lemma encodeSignedNumber_mem_range {d : ℤ} (h1 : -2 ^ 30 ≤ d) (h2 : d < 2 ^ 30)
    {c : ℕ} (hc : c ∈ encodeSignedNumber d) : 63 ≤ c ∧ c ≤ 126 :=
  encodeNumber_mem_range (signedTransform_nonneg h1 h2) hc

lemma encodePolylineAux_mem_range {points : List Point}
    (hp : ∀ p ∈ points, -180 ≤ p.1 ∧ p.1 ≤ 180 ∧ -180 ≤ p.2 ∧ p.2 ≤ 180) :
    ∀ {prevLat prevLng : ℤ}, -18000001 ≤ prevLat → prevLat ≤ 18000001 →
      -18000001 ≤ prevLng → prevLng ≤ 18000001 →
      ∀ c ∈ encodePolylineAux points prevLat prevLng, 63 ≤ c ∧ c ≤ 126 := by
  induction points with
  | nil => intro _ _ _ _ _ _ c hc; simp [encodePolylineAux] at hc
  | cons p ps ih =>
    intro prevLat prevLng ha hb hc' hd c hc
    obtain ⟨hx1, hx2, hy1, hy2⟩ := hp p (List.mem_cons_self ..)
    have hlat := jsRound_abs_le (x := p.1 * 100000) (b := 18000000) (m := 18000000)
      (by norm_num) (by linarith) (by linarith)
    have hlng := jsRound_abs_le (x := p.2 * 100000) (b := 18000000) (m := 18000000)
      (by norm_num) (by linarith) (by linarith)
    rw [encodePolylineAux] at hc
    simp only [List.mem_append] at hc
    rcases hc with (hc | hc) | hc
    · exact encodeSignedNumber_mem_range (by omega) (by omega) hc
    · exact encodeSignedNumber_mem_range (by omega) (by omega) hc
    · exact ih (fun q hq => hp q (List.mem_cons_of_mem _ hq))
        (by omega) (by omega) (by omega) (by omega) c hc

lemma encodeNumberLoop_length_pos (fuel n : ℕ) : 1 ≤ (encodeNumberLoop fuel n).length := by
  cases fuel with
  | zero => simp [encodeNumberLoop]
  | succ f =>
    rw [encodeNumberLoop]
    split <;> simp

lemma encodeNumber_length_pos (num : ℤ) : 1 ≤ (encodeNumber num).length := by
  unfold encodeNumber
  split
  · simp
  · exact encodeNumberLoop_length_pos ..

lemma encodePolylineAux_length (points : List Point) :
    ∀ prevLat prevLng : ℤ, 2 * points.length ≤ (encodePolylineAux points prevLat prevLng).length := by
  induction points with
  | nil => intro _ _; simp [encodePolylineAux]
  | cons p ps ih =>
    intro prevLat prevLng
    rw [encodePolylineAux]
    simp only [List.length_append, List.length_cons]
    have h1 := encodeNumber_length_pos (signedTransform (jsRound (p.1 * 100000) - prevLat))
    have h2 := encodeNumber_length_pos (signedTransform (jsRound (p.2 * 100000) - prevLng))
    have h3 := ih (jsRound (p.1 * 100000)) (jsRound (p.2 * 100000))
    unfold encodeSignedNumber
    omega

/-! ## Claim theorems for the delta encoder -/

/-- Claim C2 (counterexample): `encodePolyline` on the canonical Google
example does not return the string quoted by the specification, which
ends in the two characters backtick `U`. -/
theorem encodePolyline_canonical_counterexample :
    encodePolylineString [(38.5, -120.2), (40.7, -120.95), (43.252, -126.453)]
      ≠ "_p~iF~ps|U_ulLnnqC_mqNvxq`U" := by
  have h1 : jsRound ((38.5 : ℚ) * 100000) = 3850000 := by norm_num [jsRound]
  have h2 : jsRound ((-120.2 : ℚ) * 100000) = -12020000 := by norm_num [jsRound]
  have h3 : jsRound ((40.7 : ℚ) * 100000) = 4070000 := by norm_num [jsRound]
  have h4 : jsRound ((-120.95 : ℚ) * 100000) = -12095000 := by norm_num [jsRound]
  have h5 : jsRound ((43.252 : ℚ) * 100000) = 4325200 := by norm_num [jsRound]
  have h6 : jsRound ((-126.453 : ℚ) * 100000) = -12645300 := by norm_num [jsRound]
  simp only [encodePolylineString, encodePolyline, encodePolylineAux, h1, h2, h3, h4, h5, h6]
  decide

/-- Claim C2 (amended): `encodePolyline` applied to the path
`[[38.5,-120.2],[40.7,-120.95],[43.252,-126.453]]` returns exactly the
string `_p~iF~ps|U_ulLnnqC_mqNvxq`@`, which is the actual well-known
Google polyline reference output for this example (the specification
misquotes its final character as `U`; the quoted string would decode to
a longitude delta of -115.60348 degrees instead of -5.503 degrees). -/
theorem encodePolyline_canonical :
    encodePolylineString [(38.5, -120.2), (40.7, -120.95), (43.252, -126.453)]
      = "_p~iF~ps|U_ulLnnqC_mqNvxq`@" := by
  have h1 : jsRound ((38.5 : ℚ) * 100000) = 3850000 := by norm_num [jsRound]
  have h2 : jsRound ((-120.2 : ℚ) * 100000) = -12020000 := by norm_num [jsRound]
  have h3 : jsRound ((40.7 : ℚ) * 100000) = 4070000 := by norm_num [jsRound]
  have h4 : jsRound ((-120.95 : ℚ) * 100000) = -12095000 := by norm_num [jsRound]
  have h5 : jsRound ((43.252 : ℚ) * 100000) = 4325200 := by norm_num [jsRound]
  have h6 : jsRound ((-126.453 : ℚ) * 100000) = -12645300 := by norm_num [jsRound]
  simp only [encodePolylineString, encodePolyline, encodePolylineAux, h1, h2, h3, h4, h5, h6]
  decide

/-- Claim C5: for every delta `d` with `-1000000 ≤ d ≤ 1000000`, the
signed-number transformation of `encodeSignedNumber` (left shift by one
bit, bitwise inversion when the delta is negative) is inverted exactly
by the standard polyline zig-zag decoding. -/
theorem signedTransform_zigzag_roundtrip (d : ℤ) (h1 : -1000000 ≤ d) (h2 : d ≤ 1000000) :
    zigzagDecode (signedTransform d) = d := by
  rw [signedTransform_eq_of_small (by omega) (by omega)]
  unfold zigzagDecode
  split_ifs <;> omega

/-- Witness for C5 at the concrete delta `-5`. -/
theorem signedTransform_zigzag_roundtrip_witness :
    -1000000 ≤ (-5 : ℤ) ∧ (-5 : ℤ) ≤ 1000000 ∧ zigzagDecode (signedTransform (-5)) = -5 :=
  ⟨by norm_num, by norm_num, signedTransform_zigzag_roundtrip (-5) (by norm_num) (by norm_num)⟩

/-- Claim C6 (counterexample): the coordinate `-0.000005` scales to
exactly `-0.5`, which the code (JavaScript `Math.round`) rounds to `0`,
not to `-1` as round-half-away-from-zero would; consequently the point
`(-0.000005, 0)` encodes identically to the origin. -/
theorem jsRound_half_counterexample :
    jsRound (-(1 : ℚ) / 200000 * 100000) = 0 ∧
      jsRound (-(1 : ℚ) / 200000 * 100000) ≠ -1 ∧
      encodePolyline [(-(1 : ℚ) / 200000, 0)] = encodePolyline [(0, 0)] := by
  have h1 : jsRound (-(1 : ℚ) / 200000 * 100000) = 0 := by norm_num [jsRound]
  have h2 : jsRound ((0 : ℚ) * 100000) = 0 := by norm_num [jsRound]
  refine ⟨h1, by simp [h1], ?_⟩
  simp only [encodePolyline, encodePolylineAux, h1, h2]

/-- Claim C6 (amended): in `encodePolyline` every coordinate is scaled
by `1e5` and rounded to the nearest integer with ties rounded toward
positive infinity (JavaScript `Math.round`); an exact `.5` boundary
rounds up, so `-0.5` rounds to `0` while `0.5` rounds to `1`. -/
theorem jsRound_ties_toward_posinf :
    (∀ x : ℚ, x - 1 / 2 < (jsRound x : ℚ) ∧ (jsRound x : ℚ) ≤ x + 1 / 2) ∧
      (∀ n : ℤ, jsRound ((n : ℚ) + 1 / 2) = n + 1) ∧
      (∀ p : Point, encodePolyline [p] =
        encodeSignedNumber (jsRound (p.1 * 100000)) ++
          encodeSignedNumber (jsRound (p.2 * 100000))) := by
  refine ⟨fun x => ?_, fun n => ?_, fun p => ?_⟩
  · unfold jsRound
    have h1 := Int.floor_le (x + 1 / 2)
    have h2 := Int.lt_floor_add_one (x + 1 / 2)
    constructor <;> push_cast at h1 h2 ⊢ <;> linarith
  · unfold jsRound
    have : (n : ℚ) + 1 / 2 + 1 / 2 = ((n + 1 : ℤ) : ℚ) := by push_cast; ring
    rw [this, Int.floor_intCast]
  · simp [encodePolyline, encodePolylineAux]

/-- Claim C7 (counterexample): for the (physically meaningless but
finite) single-point path at latitude `10738`, the doubled delta
overflows the 32-bit left shift, `encodeNumber` receives a negative
value, and the emitted character code `50879` lies far outside
`[63, 126]`. -/
theorem encodePolyline_char_range_counterexample :
    ¬ (∀ c ∈ encodePolyline [((10738 : ℚ), 0)], 63 ≤ c ∧ c ≤ 126) := by
  have h1 : jsRound ((10738 : ℚ) * 100000) = 1073800000 := by norm_num [jsRound]
  have h2 : jsRound ((0 : ℚ) * 100000) = 0 := by norm_num [jsRound]
  simp only [encodePolyline, encodePolylineAux, h1, h2]
  decide

/-- Claim C7 (amended): for every input path whose coordinates lie in
`[-180, 180]` (amply covering real latitudes and longitudes, and
keeping every delta below `2^30` so that the 32-bit shift cannot wrap),
every character code produced by `encodePolyline` lies in `[63, 126]`. -/
theorem encodePolyline_char_range (points : List Point)
    (hp : ∀ p ∈ points, -180 ≤ p.1 ∧ p.1 ≤ 180 ∧ -180 ≤ p.2 ∧ p.2 ≤ 180) :
    ∀ c ∈ encodePolyline points, 63 ≤ c ∧ c ≤ 126 := by
  intro c hc
  exact encodePolylineAux_mem_range hp (by norm_num) (by norm_num) (by norm_num)
    (by norm_num) c hc

/-- Witness for C7 at the concrete path `[(1, 2)]`. -/
theorem encodePolyline_char_range_witness :
    (∀ p ∈ ([((1 : ℚ), (2 : ℚ))] : List Point),
      -180 ≤ p.1 ∧ p.1 ≤ 180 ∧ -180 ≤ p.2 ∧ p.2 ≤ 180) ∧
      ∀ c ∈ encodePolyline [((1 : ℚ), (2 : ℚ))], 63 ≤ c ∧ c ≤ 126 :=
  ⟨by decide, encodePolyline_char_range _ (by decide)⟩

/-- Claim C10: the encoded output has at least two characters per input
point (each point contributes a nonempty latitude chunk and a nonempty
longitude chunk), and the output is the empty string exactly when the
input path is empty. -/
theorem encodePolyline_length_lower_bound (points : List Point) :
    2 * points.length ≤ (encodePolylineString points).length ∧
      (encodePolylineString points = "" ↔ points = []) := by
  have hlen : 2 * points.length ≤ (encodePolyline points).length :=
    encodePolylineAux_length points 0 0
  have hslen : (encodePolylineString points).length = (encodePolyline points).length := by
    simp [encodePolylineString, String.length]
  refine ⟨by omega, ?_, ?_⟩
  · intro h
    have hzero : (encodePolylineString points).length = 0 := by rw [h]; rfl
    have : points.length = 0 := by omega
    exact List.length_eq_zero.mp this
  · intro h
    subst h
    rfl


/-! ## Helper lemmas for the path simplifier -/

lemma vertexReduceAux_append_last (s : ℚ) (plast : Point) :
    ∀ (mids : List Point) (prev : Point),
      vertexReduceAux s prev (mids ++ [plast]) =
        (((mids.zip (prev :: mids)).filter fun q => getSqDist q.1 q.2 > s).map Prod.fst)
          ++ [plast] := by
  intro mids
  induction mids with
  | nil => intro prev; simp [vertexReduceAux]
  | cons m ms ih =>
    intro prev
    obtain ⟨y, ys, hys⟩ := List.exists_cons_of_ne_nil (l := ms ++ [plast]) (by simp)
    rw [List.cons_append, hys, vertexReduceAux, ← hys, ih m, List.zip_cons_cons,
      List.filter_cons]
    by_cases hkeep : getSqDist m prev > s
    · simp [hkeep]
    · simp [hkeep]

/-! ## Claim theorems for the path simplifier (part 1) -/

/-- Claim C8: `simplifyPath` returns paths of length at most two
unchanged, for any tolerance; in particular it maps the empty path to
the empty path. -/
theorem simplifyPath_short_identity (points : List Point) (t : ℚ) (h : points.length ≤ 2) :
    simplifyPath points t = points := by
  unfold simplifyPath
  simp [h]

/-- Witness for C8 at the empty path and tolerance `5`. -/
theorem simplifyPath_short_identity_witness :
    ([] : List Point).length ≤ 2 ∧ simplifyPath [] 5 = [] :=
  ⟨by decide, simplifyPath_short_identity [] 5 (by decide)⟩

/-- Claim C1 (counterexample): on the path
`[(0,0), (0.9,0), (1.8,0), (5,5)]` with tolerance `1`, stage 1 keeps
only the endpoints.  The interior point `(1.8, 0)` has squared distance
`3.24 > 1²` to the previously *kept* point `(0,0)` (its two
predecessors `(0.9,0)` and `(1.8,0)` are both dropped), so the claim
demands it be kept, yet the code drops it: the loop measures each
interior point against `points[i-1]`, the immediately preceding input
point, whether or not that point was kept. -/
theorem vertexReduce_prev_kept_counterexample :
    vertexReduce [((0 : ℚ), (0 : ℚ)), (9 / 10, 0), (9 / 5, 0), (5, 5)] 1 = [(0, 0), (5, 5)]
      ∧ getSqDist ((9 / 5 : ℚ), (0 : ℚ)) (0, 0) > 1 * 1
      ∧ ((9 / 5 : ℚ), (0 : ℚ)) ∉ vertexReduce
          [((0 : ℚ), (0 : ℚ)), (9 / 10, 0), (9 / 5, 0), (5, 5)] 1 := by
  refine ⟨?_, by norm_num [getSqDist], ?_⟩
  · norm_num [vertexReduce, vertexReduceAux, getSqDist]
  · norm_num [vertexReduce, vertexReduceAux, getSqDist]

/-- Claim C1 (amended): in stage 1 of `simplifyPath`, the first and
last points are always kept, and each interior point is kept if and
only if its squared Euclidean distance to the *immediately preceding
input point* (kept or not) exceeds `tolerance²` — not to the previously
kept point as the specification states. -/
theorem vertexReduce_prev_input_characterization (p0 plast : Point) (mids : List Point)
    (t : ℚ) :
    vertexReduce (p0 :: mids ++ [plast]) (t * t) =
      p0 :: (((mids.zip (p0 :: mids)).filter fun q => getSqDist q.1 q.2 > t * t).map
        Prod.fst) ++ [plast] := by
  rw [List.cons_append, vertexReduce, vertexReduceAux_append_last]
  rfl

/-- Claim C9: `getSqSegDist` is total; on a degenerate segment
(`p1 = p2`, i.e. `dx = dy = 0`) it returns the plain squared
point-to-point distance instead of dividing by zero, and otherwise it
returns the squared distance from `p` to the projection of `p` onto the
segment with the projection parameter clamped to `[0, 1]`. -/
theorem getSqSegDist_projection_spec (p p1 p2 : Point) :
    getSqSegDist p p1 p2 =
      if p1 = p2 then getSqDist p p1
      else
        let dx := p2.1 - p1.1
        let dy := p2.2 - p1.2
        let t := ((p.1 - p1.1) * dx + (p.2 - p1.2) * dy) / (dx * dx + dy * dy)
        let tc := min 1 (max 0 t)
        getSqDist p (p1.1 + dx * tc, p1.2 + dy * tc) := by
  unfold getSqSegDist getSqDist
  by_cases heq : p1 = p2
  · subst heq
    simp
  · have hne : p2.1 - p1.1 ≠ 0 ∨ p2.2 - p1.2 ≠ 0 := by
      by_contra hcon
      push_neg at hcon
      apply heq
      obtain ⟨h1, h2⟩ := hcon
      exact Prod.ext (by linarith) (by linarith)
    simp only [if_neg heq, if_pos hne]
    set t := ((p.1 - p1.1) * (p2.1 - p1.1) + (p.2 - p1.2) * (p2.2 - p1.2)) /
      ((p2.1 - p1.1) * (p2.1 - p1.1) + (p2.2 - p1.2) * (p2.2 - p1.2)) with ht
    by_cases h1 : t > 1
    · have hmax : max 0 t = t := max_eq_right (by linarith)
      have hmin : min 1 (max 0 t) = 1 := by rw [hmax]; exact min_eq_left (by linarith)
      rw [if_pos h1, hmin]
      ring_nf
    · by_cases h0 : t > 0
      · have hmax : max 0 t = t := max_eq_right (by linarith)
        have hmin : min 1 (max 0 t) = t := by rw [hmax]; exact min_eq_right (by linarith)
        rw [if_neg h1, if_pos h0, hmin]
      · have hmax : max 0 t = 0 := max_eq_left (by linarith)
        have hmin : min 1 (max 0 t) = 0 := by rw [hmax]; simp
        rw [if_neg h1, if_neg h0, hmin]
        ring_nf

lemma vertexReduceAux_sublist (s : ℚ) :
    ∀ (l : List Point) (prev : Point), List.Sublist (vertexReduceAux s prev l) l := by
  intro l
  induction l with
  | nil => intro prev; simp [vertexReduceAux]
  | cons x xs ih =>
    intro prev
    cases xs with
    | nil => simp [vertexReduceAux]
    | cons y ys =>
      rw [vertexReduceAux]
      split
      · exact (ih x).cons₂ x
      · exact (ih x).cons x

lemma vertexReduce_sublist (points : List Point) (s : ℚ) :
    List.Sublist (vertexReduce points s) points := by
  cases points with
  | nil => simp [vertexReduce]
  | cons p0 rest =>
    rw [vertexReduce]
    exact (vertexReduceAux_sublist s rest p0).cons₂ p0

lemma foldl_dpStep_some {points : List Point} {first last : ℕ} :
    ∀ (L : List ℕ) (acc : Option ℕ × ℚ) {i : ℕ},
      (L.foldl (dpStep points first last) acc).1 = some i → acc.1 = some i ∨ i ∈ L := by
  intro L
  induction L with
  | nil => intro acc i h; exact Or.inl h
  | cons a L ih =>
    intro acc i h
    rw [List.foldl_cons] at h
    rcases ih _ h with h' | h'
    · simp only [dpStep] at h'
      split at h'
      · injection h' with h''
        subst h''
        exact Or.inr (List.mem_cons_self ..)
      · exact Or.inl h'
    · exact Or.inr (List.mem_cons_of_mem _ h')

lemma dpScan_some_bounds {points : List Point} {first last : ℕ} {s : ℚ} {i : ℕ} {m : ℚ}
    (h : dpScan points first last s = (some i, m)) : first < i ∧ i < last := by
  have h1 : (dpScan points first last s).1 = some i := by rw [h]
  unfold dpScan at h1
  rcases foldl_dpStep_some _ _ h1 with h' | h'
  · simp at h'
  · rw [List.mem_range'_1] at h'
    omega

lemma dp_bounds_combine {ixsL ixsR : List ℕ} {index first last : ℕ}
    (hbL : ∀ i ∈ ixsL, first < i ∧ i < index) (hbR : ∀ i ∈ ixsR, index < i ∧ i < last)
    (hpL : ixsL.Pairwise (· < ·)) (hpR : ixsR.Pairwise (· < ·))
    (hfi : first < index) (hil : index < last) :
    (ixsL ++ index :: ixsR).Pairwise (· < ·) ∧
      ∀ i ∈ ixsL ++ index :: ixsR, first < i ∧ i < last := by
  constructor
  · rw [List.pairwise_append]
    refine ⟨hpL, ?_, ?_⟩
    · rw [List.pairwise_cons]
      exact ⟨fun j hj => (hbR j hj).1, hpR⟩
    · intro a ha b hb
      rcases List.mem_cons.mp hb with rfl | hb'
      · exact (hbL a ha).2
      · exact lt_trans (hbL a ha).2 (hbR b hb').1
  · intro i hi
    rcases List.mem_append.mp hi with hi' | hi'
    · exact ⟨(hbL i hi').1, lt_trans (hbL i hi').2 hil⟩
    · rcases List.mem_cons.mp hi' with rfl | hi''
      · exact ⟨hfi, hil⟩
      · exact ⟨lt_trans hfi (hbR i hi'').1, (hbR i hi'').2⟩

lemma simplifyDPStep_shape (points : List Point) (s : ℚ) :
    ∀ (fuel first last : ℕ) (simplified : List Point),
      ∃ ixs : List ℕ,
        simplifyDPStep points s fuel first last simplified
          = simplified ++ ixs.map (fun i => points.getD i (0, 0))
        ∧ ixs.Pairwise (· < ·)
        ∧ ∀ i ∈ ixs, first < i ∧ i < last := by
  intro fuel
  induction fuel with
  | zero =>
    intro first last simplified
    exact ⟨[], by simp [simplifyDPStep], by simp, by simp⟩
  | succ fuel ih =>
    intro first last simplified
    rw [simplifyDPStep]
    split
    · rename_i index m hscan
      obtain ⟨hfi, hil⟩ := dpScan_some_bounds hscan
      by_cases hL : index - first > 1
      · obtain ⟨ixsL, hLeq, hLp, hLb⟩ := ih first index simplified
        by_cases hR : last - index > 1
        · obtain ⟨ixsR, hReq, hRp, hRb⟩ :=
            ih index last (simplifyDPStep points s fuel first index simplified
              ++ [points.getD index (0, 0)])
          refine ⟨ixsL ++ index :: ixsR, ?_, ?_, ?_⟩
          · simp only [if_pos hL, if_pos hR]
            rw [hReq, hLeq]
            simp [List.append_assoc]
          · exact (dp_bounds_combine hLb hRb hLp hRp hfi hil).1
          · exact (dp_bounds_combine hLb hRb hLp hRp hfi hil).2
        · refine ⟨ixsL ++ index :: [], ?_, ?_, ?_⟩
          · simp only [if_pos hL, if_neg hR]
            rw [hLeq]
            simp [List.append_assoc]
          · exact (dp_bounds_combine hLb (by simp) hLp (by simp) hfi hil).1
          · exact (dp_bounds_combine hLb (by simp) hLp (by simp) hfi hil).2
      · by_cases hR : last - index > 1
        · obtain ⟨ixsR, hReq, hRp, hRb⟩ :=
            ih index last (simplified ++ [points.getD index (0, 0)])
          refine ⟨([] : List ℕ) ++ index :: ixsR, ?_, ?_, ?_⟩
          · simp only [if_neg hL, if_pos hR]
            rw [hReq]
            simp [List.append_assoc]
          · exact (dp_bounds_combine (by simp) hRb (by simp) hRp hfi hil).1
          · exact (dp_bounds_combine (by simp) hRb (by simp) hRp hfi hil).2
        · refine ⟨([] : List ℕ) ++ index :: [], ?_, ?_, ?_⟩
          · simp only [if_neg hL, if_neg hR]
            simp
          · exact (dp_bounds_combine (by simp) (by simp) (by simp) (by simp) hfi hil).1
          · exact (dp_bounds_combine (by simp) (by simp) (by simp) (by simp) hfi hil).2
    · exact ⟨[], by simp, by simp, by simp⟩

lemma map_getD_shift {α : Type} (d a : α) (l : List α) :
    ∀ (js : List ℕ), (∀ j ∈ js, 1 ≤ j) →
      js.map (fun j => (a :: l).getD j d)
        = (js.map (fun j => j - 1)).map (fun j => l.getD j d) := by
  intro js hpos
  rw [List.map_map]
  apply List.map_congr_left
  intro j hj
  obtain ⟨j', rfl⟩ : ∃ j', j = j' + 1 := ⟨j - 1, by have := hpos j hj; omega⟩
  simp [List.getD_cons_succ]

lemma sorted_map_getD_sublist {α : Type} (d : α) :
    ∀ (l : List α) (ixs : List ℕ), ixs.Pairwise (· < ·) → (∀ i ∈ ixs, i < l.length) →
      List.Sublist (ixs.map (fun i => l.getD i d)) l := by
  intro l
  induction l with
  | nil =>
    intro ixs hp hb
    cases ixs with
    | nil => simp
    | cons i is =>
      have := hb i (List.mem_cons_self ..)
      simp at this
  | cons a l ih =>
    intro ixs hp hb
    cases ixs with
    | nil => simp
    | cons i is =>
      cases i with
      | zero =>
        have hpos : ∀ j ∈ is, 1 ≤ j := fun j hj => List.rel_of_pairwise_cons hp hj
        rw [List.map_cons]
        simp only [List.getD_cons_zero]
        rw [map_getD_shift d a l is hpos]
        refine List.Sublist.cons₂ a (ih _ ?_ ?_)
        · rw [List.pairwise_map]
          refine hp.sublist (List.sublist_cons_self ..) |>.imp_of_mem ?_
          intro x y hx hy hxy
          have := hpos x hx
          omega
        · intro j hj
          rw [List.mem_map] at hj
          obtain ⟨j', hj', rfl⟩ := hj
          have h1 := hpos j' hj'
          have h2 := hb j' (List.mem_cons_of_mem _ hj')
          simp only [List.length_cons] at h2
          omega
      | succ i' =>
        have hpos : ∀ j ∈ ((i' + 1) :: is), 1 ≤ j := by
          intro j hj
          rcases List.mem_cons.mp hj with rfl | hj'
          · omega
          · have := List.rel_of_pairwise_cons hp hj'
            omega
        rw [map_getD_shift d a l _ hpos]
        refine List.Sublist.cons a (ih _ ?_ ?_)
        · rw [List.pairwise_map]
          refine hp.imp_of_mem ?_
          intro x y hx hy hxy
          have := hpos x hx
          omega
        · intro j hj
          rw [List.mem_map] at hj
          obtain ⟨j', hj', rfl⟩ := hj
          have h1 := hpos j' hj'
          have h2 := hb j' hj'
          simp only [List.length_cons] at h2
          omega

lemma getD_append_length {α : Type} (d : α) (l : List α) (a : α) :
    (l ++ [a]).getD l.length d = a := by
  induction l with
  | nil => rfl
  | cons x xs ih => simp [ih]

/-! ## Claim theorems for the path simplifier (part 2) -/

/-- Claim C3: for every non-empty path and tolerance `t ≥ 0`,
`simplifyPath` returns an in-order subsequence of the input (no
reordering, no new points) whose first and last elements are the
input's first and last points. -/
theorem simplifyPath_sublist_endpoints (points : List Point) (t : ℚ) (hne : points ≠ [])
    (ht : 0 ≤ t) :
    List.Sublist (simplifyPath points t) points ∧
      (simplifyPath points t).head? = points.head? ∧
      (simplifyPath points t).getLast? = points.getLast? := by
  clear ht
  by_cases hlen : points.length ≤ 2
  · rw [simplifyPath, if_pos hlen]
    exact ⟨List.Sublist.refl _, rfl, rfl⟩
  · have h3 : 2 < points.length := by omega
    obtain ⟨p0, rest, rfl⟩ : ∃ p0 rest, points = p0 :: rest := by
      cases points with
      | nil => exact absurd rfl hne
      | cons a l => exact ⟨a, l, rfl⟩
    obtain ⟨mids, plast, rfl⟩ : ∃ mids plast, rest = mids ++ [plast] := by
      rcases List.eq_nil_or_concat rest with rfl | ⟨L, b, hLb⟩
      · simp at h3
      · exact ⟨L, b, by rw [hLb, List.concat_eq_append]⟩
    set K : List Point :=
      ((mids.zip (p0 :: mids)).filter fun q => getSqDist q.1 q.2 > t * t).map Prod.fst
      with hK
    set R : List Point := vertexReduce (p0 :: (mids ++ [plast])) (t * t) with hRdef
    have hRc : R = p0 :: (K ++ [plast]) := by
      rw [hRdef, vertexReduce, vertexReduceAux_append_last]
    have hval : simplifyPath (p0 :: (mids ++ [plast])) t
        = simplifyDPStep R (t * t) R.length 0 (R.length - 1) [R.getD 0 (0, 0)]
          ++ [R.getD (R.length - 1) (0, 0)] := by
      rw [simplifyPath, if_neg hlen]
    have hRlen : R.length = K.length + 2 := by rw [hRc]; simp
    have hR0 : R.getD 0 (0, 0) = p0 := by rw [hRc]; rfl
    have hRlast : R.getD (R.length - 1) (0, 0) = plast := by
      rw [hRc]
      have hassoc : p0 :: (K ++ [plast]) = (p0 :: K) ++ [plast] := by simp
      rw [hassoc]
      have hlen' : ((p0 :: K) ++ [plast]).length - 1 = (p0 :: K).length := by simp
      rw [hlen', getD_append_length]
    obtain ⟨ixs, heq, hpix, hbix⟩ :=
      simplifyDPStep_shape R (t * t) R.length 0 (R.length - 1) [R.getD 0 (0, 0)]
    have hout : simplifyPath (p0 :: (mids ++ [plast])) t
        = ((0 :: ixs) ++ [R.length - 1]).map (fun i => R.getD i (0, 0)) := by
      rw [hval, heq]
      simp [List.map_append]
    have hIp : ((0 :: ixs) ++ [R.length - 1]).Pairwise (· < ·) := by
      rw [List.pairwise_append]
      refine ⟨?_, by simp, ?_⟩
      · rw [List.pairwise_cons]
        exact ⟨fun j hj => (hbix j hj).1, hpix⟩
      · intro a ha b hb
        simp only [List.mem_singleton] at hb
        subst hb
        rcases List.mem_cons.mp ha with rfl | ha'
        · omega
        · exact (hbix a ha').2
    have hIb : ∀ i ∈ (0 :: ixs) ++ [R.length - 1], i < R.length := by
      intro i hi
      rcases List.mem_append.mp hi with hi' | hi'
      · rcases List.mem_cons.mp hi' with rfl | hi''
        · omega
        · have := hbix i hi''
          omega
      · simp only [List.mem_singleton] at hi'
        omega
    have hsub : List.Sublist (simplifyPath (p0 :: (mids ++ [plast])) t)
        (p0 :: (mids ++ [plast])) := by
      rw [hout]
      exact (sorted_map_getD_sublist (0, 0) R _ hIp hIb).trans (vertexReduce_sublist _ _)
    refine ⟨hsub, ?_, ?_⟩
    · rw [hout, List.cons_append, List.map_cons, List.head?_cons, hR0]
      rfl
    · rw [hval, hRlast]
      have h1 : (simplifyDPStep R (t * t) R.length 0 (R.length - 1) [R.getD 0 (0, 0)]
          ++ [plast]).getLast? = some plast := List.getLast?_concat _
      have h2 : (p0 :: (mids ++ [plast])).getLast? = some plast := by
        rw [← List.cons_append]
        exact List.getLast?_concat _
      rw [h1, h2]

/-- Witness for C3 at the concrete path `[(0,0), (1,1), (0,2)]` and
tolerance `1`. -/
theorem simplifyPath_sublist_endpoints_witness :
    (([((0 : ℚ), (0 : ℚ)), (1, 1), (0, 2)] : List Point) ≠ []) ∧ (0 : ℚ) ≤ 1 ∧
      (List.Sublist (simplifyPath [((0 : ℚ), (0 : ℚ)), (1, 1), (0, 2)] 1)
          [((0 : ℚ), (0 : ℚ)), (1, 1), (0, 2)] ∧
        (simplifyPath [((0 : ℚ), (0 : ℚ)), (1, 1), (0, 2)] 1).head?
          = ([((0 : ℚ), (0 : ℚ)), (1, 1), (0, 2)] : List Point).head? ∧
        (simplifyPath [((0 : ℚ), (0 : ℚ)), (1, 1), (0, 2)] 1).getLast?
          = ([((0 : ℚ), (0 : ℚ)), (1, 1), (0, 2)] : List Point).getLast?) :=
  ⟨by simp, by norm_num,
    simplifyPath_sublist_endpoints [((0 : ℚ), (0 : ℚ)), (1, 1), (0, 2)] 1 (by simp)
      (by norm_num)⟩

lemma vertexReduceAux_length_mono {s1 s2 : ℚ} (h : s1 ≤ s2) :
    ∀ (l : List Point) (prev : Point),
      (vertexReduceAux s2 prev l).length ≤ (vertexReduceAux s1 prev l).length := by
  intro l
  induction l with
  | nil => intro prev; simp [vertexReduceAux]
  | cons x xs ih =>
    intro prev
    cases xs with
    | nil => simp [vertexReduceAux]
    | cons y ys =>
      rw [vertexReduceAux, vertexReduceAux]
      by_cases h2 : getSqDist x prev > s2
      · have h1 : getSqDist x prev > s1 := lt_of_le_of_lt h h2
        rw [if_pos h2, if_pos h1]
        simpa using ih x
      · rw [if_neg h2]
        split
        · calc (vertexReduceAux s2 x (y :: ys)).length
              ≤ (vertexReduceAux s1 x (y :: ys)).length := ih x
          _ ≤ (x :: vertexReduceAux s1 x (y :: ys)).length := by simp
        · exact ih x

/-- Claim C4 (counterexample): tolerance monotonicity fails for the
full pipeline.  On the six-point path below, tolerance `1` yields three
points while the *larger* tolerance `3/2` yields four: at `3/2`,
stage 1 radially removes the dominating peak `(6, 11/2)` (and
`(5, 19/4)`), and without that peak the Douglas–Peucker stage must keep
both `(4, 4)` and `(8, 4)`; at tolerance `1` the surviving peak shields
those two points (they lie within tolerance of the chords through the
peak), so only the peak is kept. -/
theorem simplifyPath_tolerance_mono_counterexample :
    (0 : ℚ) ≤ 1 ∧ (1 : ℚ) < 3 / 2 ∧
      (simplifyPath [((0 : ℚ), (0 : ℚ)), (4, 4), (5, 19 / 4), (6, 11 / 2), (8, 4), (12, 0)]
          1).length
        < (simplifyPath [((0 : ℚ), (0 : ℚ)), (4, 4), (5, 19 / 4), (6, 11 / 2), (8, 4), (12, 0)]
          (3 / 2)).length := by
  refine ⟨by norm_num, by norm_num, ?_⟩
  have e1 : simplifyPath [((0 : ℚ), (0 : ℚ)), (4, 4), (5, 19 / 4), (6, 11 / 2), (8, 4), (12, 0)] 1
      = [((0 : ℚ), (0 : ℚ)), (6, 11 / 2), (12, 0)] := by
    norm_num [simplifyPath, vertexReduce, vertexReduceAux, getSqDist, simplifyDPStep,
      dpScan, dpStep, getSqSegDist, List.range']
  have e2 : simplifyPath [((0 : ℚ), (0 : ℚ)), (4, 4), (5, 19 / 4), (6, 11 / 2), (8, 4), (12, 0)]
      (3 / 2) = [((0 : ℚ), (0 : ℚ)), (4, 4), (8, 4), (12, 0)] := by
    norm_num [simplifyPath, vertexReduce, vertexReduceAux, getSqDist, simplifyDPStep,
      dpScan, dpStep, getSqSegDist, List.range']
  rw [e1, e2]
  simp

/-- Claim C4 (amended): monotonicity does hold for stage 1 in
isolation — increasing the tolerance never increases the length of the
vertex-reduction output — but, by the counterexample, not for the
composed `simplifyPath`. -/
theorem vertexReduce_tolerance_mono (p : List Point) (t1 t2 : ℚ) (h0 : 0 ≤ t1)
    (h12 : t1 < t2) :
    (vertexReduce p (t2 * t2)).length ≤ (vertexReduce p (t1 * t1)).length := by
  have hsq : t1 * t1 ≤ t2 * t2 := by nlinarith
  cases p with
  | nil => simp [vertexReduce]
  | cons p0 rest =>
    rw [vertexReduce, vertexReduce]
    simpa using vertexReduceAux_length_mono hsq rest p0

/-- Witness for the amended C4 at the counterexample path with
tolerances `1 < 3/2`. -/
theorem vertexReduce_tolerance_mono_witness :
    (0 : ℚ) ≤ 1 ∧ (1 : ℚ) < 3 / 2 ∧
      (vertexReduce [((0 : ℚ), (0 : ℚ)), (4, 4), (5, 19 / 4), (6, 11 / 2), (8, 4), (12, 0)]
          ((3 / 2) * (3 / 2))).length
        ≤ (vertexReduce [((0 : ℚ), (0 : ℚ)), (4, 4), (5, 19 / 4), (6, 11 / 2), (8, 4), (12, 0)]
          (1 * 1)).length :=
  ⟨by norm_num, by norm_num,
    vertexReduce_tolerance_mono
      [((0 : ℚ), (0 : ℚ)), (4, 4), (5, 19 / 4), (6, 11 / 2), (8, 4), (12, 0)] 1 (3 / 2)
      (by norm_num) (by norm_num)⟩
